import Mathlib

/-!
# Verification of the fruits-app core logic

Shallow embedding of the client-side state/data-transformation engine of the
fruits catalog application: the grouping engine (`groupFruitsByField`), the jar
accumulator (`addFruitToJar`, `addGroupToJar`, `removeFromJar`,
`updateQuantity`), the aggregate calculator (`calculateTotalCalories`) and the
search filter (`filterFruits`), together with proofs of the specified
properties.

Source files embedded: `src/utils/fruitUtils.ts` (grouping, jar, calories) and
the `useFruitsApp` hook (removal, quantity update, search filter).
-/

namespace FruitsApp

/-- Optional nested nutritional-breakdown record of an item
(`Fruit.nutritions` in `types/Fruit/index.ts`).  Not used by any of the
core computations. -/
structure Nutritions where
  calories : Int
  fat : Int
  sugar : Int
  carbohydrates : Int
  protein : Int
deriving DecidableEq, Repr

/-- One catalog item (`Fruit` in `types/Fruit/index.ts`): integer id, name,
three classification strings, calories, optional nutrition record. -/
structure Fruit where
  id : Int
  name : String
  family : String
  order : String
  genus : String
  calories : Int
  nutritions : Option Nutritions := none
deriving DecidableEq, Repr

/-- One jar entry (`JarItem`): a fruit together with its quantity. -/
structure JarItem where
  fruit : Fruit
  quantity : Int
deriving DecidableEq, Repr

/-- The grouping selector (`GroupByOption = 'None' | 'Family' | 'Order' | 'Genus'`). -/
inductive GroupByOption where
  | none
  | family
  | order
  | genus
deriving DecidableEq, Repr

/-- A `GroupedFruits` value: a JavaScript object keyed by strings, which
preserves key insertion order, modelled as an association list. -/
abbrev GroupedFruits := List (String × List Fruit)

/-- Insertion into a `GroupedFruits` object, modelling
`if (!grouped[key]) grouped[key] = []; grouped[key].push(fruit)`:
if the key is present its list is extended at the end, otherwise a new
binding is appended (JavaScript objects append new string keys last). -/
def insertGrouped (m : GroupedFruits) (key : String) (f : Fruit) : GroupedFruits :=
  match m with
  | [] => [(key, [f])]
  | (k, fs) :: rest =>
    if k = key then (k, fs ++ [f]) :: rest
    else (k, fs) :: insertGrouped rest key f

/-- The grouping fold of `groupFruitsByField` for a given key function:
`fruits.reduce((grouped, fruit) => { ... push ... }, {})`. -/
def groupByKey (key : Fruit → String) (fruits : List Fruit) : GroupedFruits :=
  fruits.foldl (fun grouped fruit => insertGrouped grouped (key fruit) fruit) []

/-- The classification attribute selected by a non-`none` `GroupByOption`
(`fruit[groupBy.toLowerCase() as keyof Fruit]`). For `none` (unused by the
code on that branch) we return the empty string. -/
def classificationKey : GroupByOption → Fruit → String
  | .family, f => f.family
  | .order, f => f.order
  | .genus, f => f.genus
  | .none, _ => ""

/-- Embeds `groupFruitsByField` from `fruitUtils.ts`: for `'None'` a single
`'All Fruits'` bucket holding every fruit; otherwise a reduce that pushes each
fruit onto the bucket named by its selected classification attribute. -/
def groupFruitsByField (fruits : List Fruit) (groupBy : GroupByOption) : GroupedFruits :=
  match groupBy with
  | .none => [("All Fruits", fruits)]
  | .family => groupByKey (fun f => f.family) fruits
  | .order => groupByKey (fun f => f.order) fruits
  | .genus => groupByKey (fun f => f.genus) fruits

/-- Embeds `calculateTotalCalories` from `fruitUtils.ts`:
`jarItems.reduce((total, item) => total + item.fruit.calories * item.quantity, 0)`. -/
def calculateTotalCalories (jarItems : List JarItem) : Int :=
  jarItems.foldl (fun total item => total + item.fruit.calories * item.quantity) 0

/-- Embeds `addFruitToJar` from `fruitUtils.ts`: if an entry with the same fruit id
exists, map over the jar incrementing its quantity; otherwise append a fresh
entry with quantity 1. -/
def addFruitToJar (jarItems : List JarItem) (fruit : Fruit) : List JarItem :=
  if jarItems.any (fun item => item.fruit.id = fruit.id) then
    jarItems.map (fun item =>
      if item.fruit.id = fruit.id then { item with quantity := item.quantity + 1 }
      else item)
  else jarItems ++ [{ fruit := fruit, quantity := 1 }]

/-- Embeds `addGroupToJar` from `fruitUtils.ts`: copies the jar and then runs
`fruits.forEach(fruit => { newJarItems = addFruitToJar(newJarItems, fruit) })`,
i.e. a left fold of `addFruitToJar` over the batch. -/
def addGroupToJar (jarItems : List JarItem) (fruits : List Fruit) : List JarItem :=
  fruits.foldl (fun newJarItems fruit => addFruitToJar newJarItems fruit) jarItems

/-- Embeds `handleRemoveFromJar` from the `useFruitsApp` hook:
`prev.filter(item => item.fruit.id !== fruitId)`. -/
def removeFromJar (jarItems : List JarItem) (fruitId : Int) : List JarItem :=
  jarItems.filter (fun item => item.fruit.id ≠ fruitId)

/-- Embeds `handleUpdateQuantity` from the `useFruitsApp` hook: for a non-positive
quantity delegate to removal, otherwise map over the jar replacing the
targeted entry's quantity. -/
def updateQuantity (jarItems : List JarItem) (fruitId : Int) (quantity : Int) :
    List JarItem :=
  if quantity ≤ 0 then removeFromJar jarItems fruitId
  else jarItems.map (fun item =>
    if item.fruit.id = fruitId then { item with quantity := quantity } else item)

/-- Character-list version of JavaScript `String.prototype.startsWith`. -/
def startsWithChars : List Char → List Char → Bool
  | _, [] => true
  | [], _ :: _ => false
  | a :: as, b :: bs => a == b && startsWithChars as bs

/-- Character-list version of JavaScript `String.prototype.includes`:
the second list occurs contiguously inside the first. -/
def hasSubChars (needle : List Char) : List Char → Bool
  | [] => needle.isEmpty
  | a :: rest => startsWithChars (a :: rest) needle || hasSubChars needle rest

/-- JavaScript `s.includes(pat)` on our string model. -/
def strIncludes (s pat : String) : Bool := hasSubChars pat.data s.data

/-- JavaScript `String.prototype.toLowerCase` (ASCII-faithful). -/
def toLowerStr (s : String) : String := ⟨s.data.map Char.toLower⟩

/-- JavaScript `String.prototype.trim`: strip leading and trailing whitespace. -/
def trimStr (s : String) : String :=
  ⟨((s.data.dropWhile Char.isWhitespace).reverse.dropWhile Char.isWhitespace).reverse⟩

/-- The `filteredFruits` memo of the `useFruitsApp` hook: with a blank
(empty-after-trim) query return the fruits unchanged, otherwise keep the
fruits whose lowercased name, family, genus or order contains the lowercased
query. -/
def filterFruits (fruits : List Fruit) (query : String) : List Fruit :=
  if trimStr query = "" then fruits
  else
    let q := toLowerStr query
    fruits.filter (fun fruit =>
      strIncludes (toLowerStr fruit.name) q ||
      strIncludes (toLowerStr fruit.family) q ||
      strIncludes (toLowerStr fruit.genus) q ||
      strIncludes (toLowerStr fruit.order) q)

/-- The `item1` of the spec's concrete scenario. -/
def apple : Fruit :=
  { id := 1, name := "Apple", family := "Rosaceae", order := "Rosales",
    genus := "Malus", calories := 52 }

/-- The `item2` of the spec's concrete scenario. -/
def banana : Fruit :=
  { id := 2, name := "Banana", family := "Musaceae", order := "Zingiberales",
    genus := "Musa", calories := 89 }

end FruitsApp

namespace FruitsApp

/-- Folding the calorie accumulator from any starting total adds the mapped sum. -/
lemma foldl_calories (jar : List JarItem) (init : Int) :
    jar.foldl (fun total item => total + item.fruit.calories * item.quantity) init =
      init + (jar.map (fun e => e.fruit.calories * e.quantity)).sum := by
  induction jar generalizing init with
  | nil => simp
  | cons e rest ih => simp [ih, add_assoc]

/-- C5: `calculateTotalCalories` is the quantity-weighted calorie sum, the
empty jar totals 0, and adding item1 (52 kcal) twice and item2 (89 kcal) once
to an empty jar totals 193. -/
theorem calculateTotalCalories_spec :
    (∀ jar : List JarItem,
        calculateTotalCalories jar = (jar.map (fun e => e.fruit.calories * e.quantity)).sum)
    ∧ calculateTotalCalories [] = 0
    ∧ calculateTotalCalories
        (addFruitToJar (addFruitToJar (addFruitToJar [] apple) apple) banana) = 193 := by
  refine ⟨fun jar => ?_, rfl, by decide⟩
  simpa using foldl_calories jar 0

/-- C2: `addFruitToJar` increments in place the quantity of the entry whose
fruit id matches (all other entries and all positions unchanged), appends a
fresh quantity-1 entry when no entry matches, and in particular adding the
same fruit twice to the empty jar yields one entry of quantity 2. -/
theorem addFruitToJar_spec (jar : List JarItem) (f : Fruit) :
    ((∃ e ∈ jar, e.fruit.id = f.id) →
        (addFruitToJar jar f).length = jar.length ∧
        ∀ (i : Nat) (e : JarItem), jar[i]? = some e →
          (addFruitToJar jar f)[i]? =
            some (if e.fruit.id = f.id then { e with quantity := e.quantity + 1 } else e))
    ∧ ((∀ e ∈ jar, e.fruit.id ≠ f.id) → addFruitToJar jar f = jar ++ [⟨f, 1⟩])
    ∧ addFruitToJar (addFruitToJar [] f) f = [⟨f, 2⟩] := by
  refine ⟨fun hex => ?_, fun hne => ?_, ?_⟩
  · have hany : jar.any (fun item => item.fruit.id = f.id) = true := by
      simpa [List.any_eq_true] using hex
    refine ⟨by simp [addFruitToJar, hany], fun i e hi => ?_⟩
    simp [addFruitToJar, hany, List.getElem?_map, hi]
  · have hany : jar.any (fun item => item.fruit.id = f.id) = false := by
      simpa [List.any_eq_false] using hne
    simp [addFruitToJar, hany]
  · simp [addFruitToJar]

/-- Closed instance of `addFruitToJar_spec` with both hypotheses discharged at
concrete jars. -/
theorem addFruitToJar_spec_witness :
    (addFruitToJar [⟨apple, 1⟩] apple).length = 1 ∧
    addFruitToJar [] banana = [⟨banana, 1⟩] :=
  ⟨((addFruitToJar_spec [⟨apple, 1⟩] apple).1 ⟨⟨apple, 1⟩, by simp, rfl⟩).1,
    (addFruitToJar_spec [] banana).2.1 (by simp)⟩

/-- Modelled on the spec's wording of `add-many`: the left fold of `add-one`
over the batch in sequence order. -/
def addManySpec (jar : List JarItem) (fruits : List Fruit) : List JarItem :=
  fruits.foldl addFruitToJar jar

/-- C3: `addGroupToJar` coincides with folding `addFruitToJar` left-to-right
over the batch, and the two-element batch `[a, b]` yields the same total
calories as two successive single additions. -/
theorem addGroupToJar_spec (jar : List JarItem) (fruits : List Fruit) (a b : Fruit) :
    addGroupToJar jar fruits = addManySpec jar fruits
    ∧ calculateTotalCalories (addGroupToJar jar [a, b]) =
        calculateTotalCalories (addFruitToJar (addFruitToJar jar a) b) :=
  ⟨rfl, rfl⟩

/-- C7: grouping with `'None'` always yields exactly the single sentinel key
`'All Fruits'` bound to the whole input, also for the empty input. -/
theorem groupFruitsByField_none (fruits : List Fruit) :
    groupFruitsByField fruits .none = [("All Fruits", fruits)] := rfl

/-- C4: `set-quantity` with a non-positive quantity is exactly `remove`, and
with quantity ≥ 1 it rewrites the matching entry's quantity in place, leaving
every other entry and every position untouched. -/
theorem updateQuantity_spec (jar : List JarItem) (fruitId q : Int) :
    (q ≤ 0 → updateQuantity jar fruitId q = removeFromJar jar fruitId)
    ∧ (1 ≤ q → ∀ (i : Nat) (e : JarItem), jar[i]? = some e →
        (updateQuantity jar fruitId q)[i]? =
          some (if e.fruit.id = fruitId then { e with quantity := q } else e)) := by
  refine ⟨fun hq => by simp [updateQuantity, hq], fun hq i e hi => ?_⟩
  have hq' : ¬ q ≤ 0 := by omega
  simp [updateQuantity, hq', List.getElem?_map, hi]

/-- Closed instance of `updateQuantity_spec` with both hypotheses discharged
at a concrete jar. -/
theorem updateQuantity_spec_witness :
    updateQuantity [⟨apple, 2⟩] 1 0 = removeFromJar [⟨apple, 2⟩] 1 ∧
    (updateQuantity [⟨apple, 2⟩] 1 5)[0]? = some ⟨apple, 5⟩ := by
  refine ⟨(updateQuantity_spec [⟨apple, 2⟩] 1 0).1 le_rfl, ?_⟩
  have h := (updateQuantity_spec [⟨apple, 2⟩] 1 5).2 (by omega) 0 ⟨apple, 2⟩ rfl
  simpa [apple] using h

/-- C10: with quantity ≥ 1, `set-quantity` preserves the jar's length, leaves
every entry whose fruit id differs untouched in value and position, and is a
silent no-op when no entry carries the targeted id. -/
theorem updateQuantity_frame (jar : List JarItem) (fruitId q : Int) (h : 1 ≤ q) :
    (updateQuantity jar fruitId q).length = jar.length
    ∧ (∀ (i : Nat) (e : JarItem), jar[i]? = some e → e.fruit.id ≠ fruitId →
        (updateQuantity jar fruitId q)[i]? = some e)
    ∧ ((∀ e ∈ jar, e.fruit.id ≠ fruitId) → updateQuantity jar fruitId q = jar) := by
  have hq' : ¬ q ≤ 0 := by omega
  refine ⟨by simp [updateQuantity, hq'], fun i e hi hne => ?_, fun hall => ?_⟩
  · simp [updateQuantity, hq', List.getElem?_map, hi, hne]
  · simp only [updateQuantity, hq', if_false]
    calc jar.map (fun item =>
          if item.fruit.id = fruitId then { item with quantity := q } else item)
        = jar.map id := List.map_congr_left (fun e he => by simp [hall e he])
      _ = jar := List.map_id jar

/-- Closed instance of `updateQuantity_frame` at a concrete jar with an
absent id. -/
theorem updateQuantity_frame_witness :
    updateQuantity [⟨apple, 2⟩] 7 3 = [⟨apple, 2⟩] :=
  (updateQuantity_frame [⟨apple, 2⟩] 7 3 (by omega)).2.2 (by decide)

/-- C6: a blank (empty or whitespace-only) query leaves the fruit sequence
unchanged (same sequence, same order); otherwise the result equals the filter
of the input keeping exactly the fruits — every matching occurrence — one of
whose lowercased name, family, genus or order contains the lowercased query,
and in either case the result is a subsequence of the input. -/
theorem filterFruits_spec (S : List Fruit) (q : String) :
    (trimStr q = "" → filterFruits S q = S)
    ∧ (filterFruits S q).Sublist S
    ∧ (trimStr q ≠ "" → filterFruits S q =
        S.filter (fun f =>
          strIncludes (toLowerStr f.name) (toLowerStr q) ||
          strIncludes (toLowerStr f.family) (toLowerStr q) ||
          strIncludes (toLowerStr f.genus) (toLowerStr q) ||
          strIncludes (toLowerStr f.order) (toLowerStr q))) := by
  refine ⟨fun hb => by simp [filterFruits, hb], ?_, fun hb => ?_⟩
  · by_cases hb : trimStr q = ""
    · simp [filterFruits, hb]
    · simp only [filterFruits, hb, if_false]
      exact List.filter_sublist S
  · simp [filterFruits, hb]

/-- Closed instance of `filterFruits_spec`: the empty query is the identity
on a concrete sequence, and the spec's scenario query `"an"` yields exactly
the four-field filter of the input — which keeps exactly the banana. -/
theorem filterFruits_spec_witness :
    filterFruits [apple, banana] "" = [apple, banana] ∧
    filterFruits [apple, banana] "an" =
      List.filter (fun f =>
        strIncludes (toLowerStr f.name) (toLowerStr "an") ||
        strIncludes (toLowerStr f.family) (toLowerStr "an") ||
        strIncludes (toLowerStr f.genus) (toLowerStr "an") ||
        strIncludes (toLowerStr f.order) (toLowerStr "an")) [apple, banana] ∧
    filterFruits [apple, banana] "an" = [banana] := by
  refine ⟨(filterFruits_spec [apple, banana] "").1 (by decide), ?_, by decide⟩
  exact (filterFruits_spec [apple, banana] "an").2.2 (by decide)

/-- The sequence of distinct keys of a list in order of first appearance:
the head comes first, followed by the remaining distinct keys in their own
first-appearance order with later duplicates of the head dropped. -/
def dedupFirst : List String → List String
  | [] => []
  | k :: ks => k :: (dedupFirst ks).filter (fun x => x ≠ k)

lemma mem_dedupFirst {x : String} : ∀ {L : List String}, x ∈ dedupFirst L ↔ x ∈ L := by
  intro L
  induction L with
  | nil => simp [dedupFirst]
  | cons k L ih =>
    simp only [dedupFirst, List.mem_cons, List.mem_filter, ih]
    by_cases h : x = k <;> simp [h]

lemma nodup_dedupFirst : ∀ L : List String, (dedupFirst L).Nodup
  | [] => by simp [dedupFirst]
  | k :: L => by
    simp only [dedupFirst, List.nodup_cons]
    refine ⟨fun hmem => ?_, (nodup_dedupFirst L).filter _⟩
    simp at hmem

lemma dedupFirst_sublist : ∀ L : List String, (dedupFirst L).Sublist L
  | [] => by simp [dedupFirst]
  | k :: L => by
    simp only [dedupFirst]
    exact ((List.filter_sublist _).trans (dedupFirst_sublist L)).cons₂ k

lemma dedupFirst_append (L : List String) (k : String) :
    dedupFirst (L ++ [k]) = if k ∈ L then dedupFirst L else dedupFirst L ++ [k] := by
  induction L with
  | nil => simp [dedupFirst]
  | cons a L ih =>
    have hstep : dedupFirst ((a :: L) ++ [k]) =
        a :: (dedupFirst (L ++ [k])).filter (fun x => x ≠ a) := rfl
    by_cases hkL : k ∈ L
    · have : k ∈ a :: L := List.mem_cons_of_mem a hkL
      rw [hstep, ih, if_pos hkL, if_pos this]
      rfl
    · by_cases hka : k = a
      · subst hka
        have : k ∈ k :: L := List.mem_cons_self k L
        rw [hstep, ih, if_neg hkL, if_pos this, List.filter_append]
        simp [dedupFirst]
      · have : k ∉ a :: L := by simp [hka, hkL]
        rw [hstep, ih, if_neg hkL, if_neg this, List.filter_append]
        simp only [dedupFirst, List.filter_cons, List.filter_nil]
        have hk : (fun x => decide (x ≠ a)) k = true := by simp [hka]
        simp [hka]

lemma insertGrouped_map_not_mem (ks : List String) (v : String → List Fruit)
    (q : String) (f : Fruit) (h : q ∉ ks) :
    insertGrouped (ks.map fun k => (k, v k)) q f =
      ks.map (fun k => (k, v k)) ++ [(q, [f])] := by
  induction ks with
  | nil => rfl
  | cons a ks ih =>
    have haq : ¬ a = q := fun hc => h (hc ▸ List.mem_cons_self a ks)
    have h' : q ∉ ks := fun hc => h (List.mem_cons_of_mem a hc)
    simp [insertGrouped, haq, ih h']

lemma insertGrouped_map_mem (ks : List String) (v : String → List Fruit)
    (q : String) (f : Fruit) (hnd : ks.Nodup) (h : q ∈ ks) :
    insertGrouped (ks.map fun k => (k, v k)) q f =
      ks.map (fun k => (k, if k = q then v k ++ [f] else v k)) := by
  induction ks with
  | nil => simp at h
  | cons a ks ih =>
    rcases List.nodup_cons.1 hnd with ⟨hna, hnd'⟩
    by_cases haq : a = q
    · subst haq
      simp only [List.map_cons, insertGrouped, if_pos rfl, if_true]
      congr 1
      refine (List.map_congr_left fun k hk => ?_)
      have : ¬ k = a := fun hc => hna (hc ▸ hk)
      simp [this]
    · have h' : q ∈ ks := by
        rcases List.mem_cons.1 h with hc | hc
        · exact absurd hc.symm haq
        · exact hc
      simp [insertGrouped, haq, ih hnd' h']

/-- Structure theorem for the grouping fold: the groups are indexed by the
distinct key values in first-appearance order, and each group is the ordered
filter of the input along its key. -/
lemma groupByKey_eq (key : Fruit → String) (S : List Fruit) :
    groupByKey key S =
      (dedupFirst (S.map key)).map
        (fun k => (k, S.filter (fun f => key f = k))) := by
  induction S using List.reverseRecOn with
  | nil => rfl
  | append_singleton S f ih =>
    have hstep : groupByKey key (S ++ [f]) =
        insertGrouped (groupByKey key S) (key f) f := by
      simp [groupByKey, List.foldl_append]
    rw [hstep, ih]
    by_cases hq : key f ∈ S.map key
    · have hq' : key f ∈ dedupFirst (S.map key) := mem_dedupFirst.2 hq
      rw [insertGrouped_map_mem _ _ _ _ (nodup_dedupFirst _) hq']
      have hkeys : dedupFirst ((S ++ [f]).map key) = dedupFirst (S.map key) := by
        rw [List.map_append, List.map_singleton, dedupFirst_append, if_pos hq]
      rw [hkeys]
      refine (List.map_congr_left fun k _ => ?_)
      by_cases hkq : k = key f
      · subst hkq
        simp [List.filter_append]
      · have : ¬ key f = k := fun hc => hkq hc.symm
        simp [List.filter_append, this, hkq]
    · have hq' : key f ∉ dedupFirst (S.map key) := fun hc => hq (mem_dedupFirst.1 hc)
      rw [insertGrouped_map_not_mem _ _ _ _ hq']
      have hkeys : dedupFirst ((S ++ [f]).map key) = dedupFirst (S.map key) ++ [key f] := by
        rw [List.map_append, List.map_singleton, dedupFirst_append, if_neg hq]
      rw [hkeys, List.map_append]
      congr 1
      · refine (List.map_congr_left fun k hk => ?_)
        have : ¬ key f = k := by
          intro hc
          exact hq (hc ▸ mem_dedupFirst.1 hk)
        simp [List.filter_append, this]
      · have hnil : S.filter (fun x => key x = key f) = [] := by
          refine List.filter_eq_nil_iff.2 fun a ha => ?_
          simp only [decide_eq_true_eq]
          intro hc
          exact hq (hc ▸ List.mem_map_of_mem key ha)
        simp [List.filter_append, hnil]

/-- Grouping with a non-`none` selector is the structured grouping
along the selected classification attribute. -/
lemma groupFruitsByField_eq (S : List Fruit) (g : GroupByOption) (hg : g ≠ .none) :
    groupFruitsByField S g =
      (dedupFirst (S.map (classificationKey g))).map
        (fun k => (k, S.filter (fun f => classificationKey g f = k))) := by
  cases g with
  | none => exact absurd rfl hg
  | family => exact groupByKey_eq _ S
  | order => exact groupByKey_eq _ S
  | genus => exact groupByKey_eq _ S

lemma count_filter_eq (x : Fruit) (p : Fruit → Bool) :
    ∀ S : List Fruit, (S.filter p).count x = if p x = true then S.count x else 0 := by
  intro S
  induction S with
  | nil => simp
  | cons a S ih =>
    by_cases hpa : p a = true
    · rw [List.filter_cons_of_pos hpa, List.count_cons, List.count_cons, ih]
      by_cases hpx : p x = true
      · simp [hpx]
      · have hax : ¬ a = x := fun hc => hpx (hc ▸ hpa)
        simp [hpx, hax]
    · rw [List.filter_cons_of_neg hpa, ih, List.count_cons]
      by_cases hpx : p x = true
      · have hax : ¬ a = x := fun hc => hpa (hc.symm ▸ hpx)
        simp [hpx, hax]
      · simp [hpx]

lemma map_fst_groups (ks : List String) (S : List Fruit) (key : Fruit → String) :
    (ks.map (fun k => (k, S.filter (fun f => key f = k)))).map Prod.fst = ks := by
  induction ks with
  | nil => rfl
  | cons a ks ih =>
    simp only [List.map_cons]
    rw [ih]

lemma sum_map_ite_count (c : String) (v : Nat) :
    ∀ ks : List String, ks.Nodup →
      (ks.map (fun k => if c = k then v else 0)).sum = if c ∈ ks then v else 0
  | [], _ => by simp
  | a :: ks, hnd => by
    rcases List.nodup_cons.1 hnd with ⟨hna, hnd'⟩
    have ih := sum_map_ite_count c v ks hnd'
    by_cases hca : c = a
    · subst hca
      simp [ih, hna]
    · simp [hca, ih, List.mem_cons]

/-- C1: for a non-`none` selector, grouping maps each distinct raw attribute
value (exact, case-sensitive) to exactly the input fruits carrying that
value: group labels are distinct, a label occurs iff some input fruit carries
it, every input fruit lies in exactly one group, and the concatenation of all
groups is a permutation of the input (no loss, no duplication). -/
theorem groupFruitsByField_partition (S : List Fruit) (g : GroupByOption)
    (hg : g ≠ .none) :
    (∀ k fs, (k, fs) ∈ groupFruitsByField S g →
        fs = S.filter (fun f => classificationKey g f = k))
    ∧ ((groupFruitsByField S g).map Prod.fst).Nodup
    ∧ (∀ k : String, k ∈ (groupFruitsByField S g).map Prod.fst ↔
        ∃ f ∈ S, classificationKey g f = k)
    ∧ (∀ f ∈ S, ∃! p : String × List Fruit, p ∈ groupFruitsByField S g ∧ f ∈ p.2)
    ∧ ((groupFruitsByField S g).map Prod.snd).flatten.Perm S := by
  rw [groupFruitsByField_eq S g hg]
  refine ⟨?_, ?_, ?_, ?_, ?_⟩
  · intro k fs hmem
    rcases List.mem_map.1 hmem with ⟨k', _, hk'⟩
    cases hk'
    rfl
  · rw [map_fst_groups]
    exact nodup_dedupFirst (S.map (classificationKey g))
  · intro k
    rw [map_fst_groups, mem_dedupFirst, List.mem_map]
  · intro f hf
    refine ⟨(classificationKey g f,
        S.filter (fun x => classificationKey g x = classificationKey g f)),
      ⟨?_, ?_⟩, ?_⟩
    · exact List.mem_map_of_mem _
        (mem_dedupFirst.2 (List.mem_map_of_mem (classificationKey g) hf))
    · simp [List.mem_filter, hf]
    · rintro p ⟨hmem, hin⟩
      rcases List.mem_map.1 hmem with ⟨q, hqmem, rfl⟩
      have hkf : classificationKey g f = q := by
        have := (List.mem_filter.1 hin).2
        simpa using this
      subst hkf
      rfl
  · refine List.perm_iff_count.2 fun x => ?_
    have h1 : ((((dedupFirst (S.map (classificationKey g))).map
          (fun k => (k, S.filter (fun f => classificationKey g f = k)))).map
          Prod.snd).flatten).count x =
        ((dedupFirst (S.map (classificationKey g))).map
          (fun k => (S.filter (fun f => classificationKey g f = k)).count x)).sum := by
      rw [List.map_map, List.count_flatten, List.map_map]
      rfl
    have h2 : ∀ k ∈ dedupFirst (S.map (classificationKey g)),
        (S.filter (fun f => classificationKey g f = k)).count x =
          if classificationKey g x = k then S.count x else 0 := by
      intro k _
      rw [count_filter_eq]
      simp
    rw [h1, List.map_congr_left h2,
      sum_map_ite_count (classificationKey g x) (S.count x) _ (nodup_dedupFirst _)]
    by_cases hx : x ∈ S
    · rw [if_pos (mem_dedupFirst.2 (List.mem_map_of_mem (classificationKey g) hx))]
    · have h0 : S.count x = 0 := List.count_eq_zero.2 hx
      simp [h0]

/-- Closed instance of `groupFruitsByField_partition` at the spec's
two-fruit scenario grouped by family. -/
theorem groupFruitsByField_partition_witness :
    ((groupFruitsByField [apple, banana] .family).map Prod.snd).flatten.Perm
      [apple, banana]
    ∧ ∃! p : String × List Fruit,
        p ∈ groupFruitsByField [apple, banana] .family ∧ apple ∈ p.2 :=
  ⟨(groupFruitsByField_partition [apple, banana] .family (by decide)).2.2.2.2,
    (groupFruitsByField_partition [apple, banana] .family
      (by decide)).2.2.2.1 apple (by simp)⟩

/-- C8: for a non-`none` selector the group labels are listed exactly in the
order their attribute value first appears in the input, and each group lists
its fruits as the ordered filter of the input, hence as a subsequence of the
input — no sorting of groups or items takes place. -/
theorem groupFruitsByField_order_preserving (S : List Fruit) (g : GroupByOption)
    (hg : g ≠ .none) :
    (groupFruitsByField S g).map Prod.fst = dedupFirst (S.map (classificationKey g))
    ∧ (∀ k fs, (k, fs) ∈ groupFruitsByField S g →
        fs = S.filter (fun f => classificationKey g f = k) ∧ fs.Sublist S) := by
  rw [groupFruitsByField_eq S g hg]
  refine ⟨?_, ?_⟩
  · rw [map_fst_groups]
  · intro k fs hmem
    rcases List.mem_map.1 hmem with ⟨k', _, hk'⟩
    cases hk'
    exact ⟨rfl, List.filter_sublist S⟩

/-- Closed instance of `groupFruitsByField_order_preserving`: grouping the
spec's two fruits by family lists the labels in input order. -/
theorem groupFruitsByField_order_witness :
    (groupFruitsByField [apple, banana] .family).map Prod.fst =
      ["Rosaceae", "Musaceae"] := by
  have h := (groupFruitsByField_order_preserving [apple, banana] .family
    (by decide)).1
  rw [h]
  decide

/-- A user action on the jar: one of the four mutation operations the hook
exposes to the rendering layer. -/
inductive JarOp where
  | addOne (f : Fruit)
  | addMany (fs : List Fruit)
  | remove (fruitId : Int)
  | setQty (fruitId : Int) (quantity : Int)

/-- Executing one jar operation on the current jar state. -/
def applyOp (jar : List JarItem) : JarOp → List JarItem
  | .addOne f => addFruitToJar jar f
  | .addMany fs => addGroupToJar jar fs
  | .remove fruitId => removeFromJar jar fruitId
  | .setQty fruitId q => updateQuantity jar fruitId q

/-- The jar data invariant: at most one entry per distinct fruit id, and
every entry's quantity is at least 1. -/
def JarWF (jar : List JarItem) : Prop :=
  (jar.map (fun e => e.fruit.id)).Nodup ∧ ∀ e ∈ jar, 1 ≤ e.quantity

lemma jarWF_addFruit {jar : List JarItem} (f : Fruit) (h : JarWF jar) :
    JarWF (addFruitToJar jar f) := by
  rcases h with ⟨hnd, hq⟩
  unfold addFruitToJar
  by_cases hany : jar.any (fun item => item.fruit.id = f.id)
  · rw [if_pos hany]
    constructor
    · have hids : (jar.map (fun item =>
          if item.fruit.id = f.id then { item with quantity := item.quantity + 1 }
          else item)).map (fun e => e.fruit.id) = jar.map (fun e => e.fruit.id) := by
        rw [List.map_map]
        refine List.map_congr_left fun e _ => ?_
        by_cases he : e.fruit.id = f.id <;> simp [he]
      rw [hids]
      exact hnd
    · intro e he
      rcases List.mem_map.1 he with ⟨e', he', rfl⟩
      by_cases h' : e'.fruit.id = f.id
      · simp only [h', if_true]
        have := hq e' he'
        omega
      · simpa [h'] using hq e' he'
  · rw [if_neg hany]
    constructor
    · have hfree : ∀ x ∈ jar, ¬ x.fruit.id = f.id := by
        intro x hx hc
        rw [List.any_eq_true] at hany
        exact hany ⟨x, hx, by simpa using hc⟩
      simpa [List.nodup_append] using ⟨hnd, hfree⟩
    · intro e he
      rcases List.mem_append.1 he with h' | h'
      · exact hq e h'
      · simp only [List.mem_singleton] at h'
        subst h'
        norm_num

lemma jarWF_remove {jar : List JarItem} (fruitId : Int) (h : JarWF jar) :
    JarWF (removeFromJar jar fruitId) := by
  rcases h with ⟨hnd, hq⟩
  constructor
  · exact hnd.sublist (List.Sublist.map _ (List.filter_sublist jar))
  · intro e he
    exact hq e (List.mem_of_mem_filter he)

lemma jarWF_update {jar : List JarItem} (fruitId q : Int) (h : JarWF jar) :
    JarWF (updateQuantity jar fruitId q) := by
  unfold updateQuantity
  by_cases hq0 : q ≤ 0
  · rw [if_pos hq0]
    exact jarWF_remove fruitId h
  · rw [if_neg hq0]
    rcases h with ⟨hnd, hq⟩
    constructor
    · have hids : (jar.map (fun item =>
          if item.fruit.id = fruitId then { item with quantity := q }
          else item)).map (fun e => e.fruit.id) = jar.map (fun e => e.fruit.id) := by
        rw [List.map_map]
        refine List.map_congr_left fun e _ => ?_
        by_cases he : e.fruit.id = fruitId <;> simp [he]
      rw [hids]
      exact hnd
    · intro e he
      rcases List.mem_map.1 he with ⟨e', he', rfl⟩
      by_cases h' : e'.fruit.id = fruitId
      · simp only [h', if_true]
        omega
      · simpa [h'] using hq e' he'

lemma jarWF_addGroup {jar : List JarItem} (fs : List Fruit) (h : JarWF jar) :
    JarWF (addGroupToJar jar fs) := by
  induction fs generalizing jar with
  | nil => exact h
  | cons f fs ih => exact ih (jarWF_addFruit f h)

lemma jarWF_applyOp {jar : List JarItem} (op : JarOp) (h : JarWF jar) :
    JarWF (applyOp jar op) := by
  cases op with
  | addOne f => exact jarWF_addFruit f h
  | addMany fs => exact jarWF_addGroup fs h
  | remove fruitId => exact jarWF_remove fruitId h
  | setQty fruitId q => exact jarWF_update fruitId q h

/-- C9: every jar state reachable from the empty jar through any sequence of
add-one, add-many, remove and set-quantity operations has pairwise distinct
fruit ids and only quantities of at least 1. -/
theorem jar_invariant (ops : List JarOp) : JarWF (ops.foldl applyOp []) := by
  have hgen : ∀ jar, JarWF jar → JarWF (ops.foldl applyOp jar) := by
    induction ops with
    | nil => exact fun jar h => h
    | cons op ops ih => exact fun jar h => ih _ (jarWF_applyOp op h)
  exact hgen [] ⟨by simp, by simp⟩

end FruitsApp
